import Mathlib

/-!
Shallow embedding of `cirq-core/cirq/contrib/qpic/qpic_diagram.py`:
a converter from a cirq circuit to the QPIC diagram language.

Qubits are represented by their display name (`str(qubit)`), which is the
only thing the module ever reads from a qubit.  Fallible Python code
(unguarded indexing that can raise `IndexError`) is embedded into `Option`:
`none` models the raised exception.
-/

namespace Qpic

/-- Python `str.strip()` on the whitespace that can occur here: drop leading
and trailing whitespace characters. -/
def strip (s : String) : String :=
  String.mk (((s.data.dropWhile Char.isWhitespace).reverse.dropWhile
    Char.isWhitespace).reverse)

/-- The gate of an operation, as matched by `op_to_qpic`'s `match op.gate`.
The eight fixed cases are matched by gate identity / class in the source;
`other` carries `str(gate)` for any other gate, which is all the fallback
branch uses of it. -/
inductive GateId where
  | pauliX
  | pauliZ
  | hadamard
  | cnot
  | cz
  | swapGate
  | toffoli
  | measurement (s : String)
  | other (s : String)
deriving DecidableEq

/-- An operation: its gate (`none` models a gate-less custom operation,
whose `op.gate` is Python `None`), its qubits in the order they were passed
to the operation, and `str(op)` (used by `get_latex_name` when the gate is
`None`). -/
structure Operation where
  gate : Option GateId
  qubits : List String
  str_rep : String
deriving DecidableEq

/-- A moment of a circuit. -/
structure Moment where
  operations : List Operation
deriving DecidableEq

/-- A circuit: an ordered sequence of moments. -/
structure Circuit where
  moments : List Moment
deriving DecidableEq

/-- Lexicographic order on character lists, by code point. -/
def lex_le : List Char → List Char → Bool
  | [], _ => true
  | _ :: _, [] => false
  | a :: as, b :: bs =>
    if a < b then true
    else if b < a then false
    else lex_le as bs

/-- Lexicographic order on display names. -/
def str_le (a b : String) : Bool := lex_le a.data b.data

/-- Modelled from the spec: the external qubit-ordering resolver ("a
qubit-ordering resolver capable of turning a default/explicit/list
specification into a concrete total order over a given qubit set").  The
module under `src/` only consumes it.  The `default` specification yields
the sorted total order over the given qubits, as the repository's own tests
exercise it (`test_fallback_diagram` renders a gate applied to `(b, a, c)`
as `a b c G MagicGate`); an `explicit` specification always returns its
fixed wire list, which is why `op_to_qpic` filters the result back down to
the qubits it asked about. -/
inductive QubitOrder where
  | default
  | explicit (fixed : List String)
deriving DecidableEq

/-- Modelled from the spec: `order_for` of the qubit-ordering resolver. -/
def QubitOrder.order_for : QubitOrder → List String → List String
  | .default, qubits => List.insertionSort (fun a b => str_le a b = true) qubits
  | .explicit fixed, _ => fixed

/-- The characters `qpic_qubit_namer` deletes (`forbidden_symbols` in the
source, the raw string `\#${}%=@":;`). -/
def forbidden_symbols : List Char :=
  ['\\', '#', '$', '\x7b', '\x7d', '%', '=', '@', '"', ':', ';']

/-- `name.translate(str.maketrans("", "", forbidden_symbols))`: remove every
occurrence of each forbidden character, keeping everything else as is. -/
def strip_forbidden (name : String) : String :=
  String.mk (name.data.filter (fun c => !forbidden_symbols.contains c))

/-- `qpic_qubit_namer`: strip the forbidden characters, then replace a
leading `-` (resp. `+`) with the prefix `minus_` (resp. `plus_`).  The
source reads `name[0]` with no guard; on a name that is empty after
stripping this raises `IndexError`, modelled by `none`. -/
def qpic_qubit_namer (qubit : String) : Option String :=
  match (strip_forbidden qubit).data with
  | [] => none
  | c :: rest =>
    if c = '-' then some ("minus_" ++ String.mk rest)
    else if c = '+' then some ("plus_" ++ String.mk rest)
    else some (strip_forbidden qubit)

/-- `name.split('**', 1)` preceded by the `'**' in name` test: `some (b, e)`
when the character list contains `**`, splitting at its first occurrence. -/
def split_power : List Char → Option (List Char × List Char)
  | [] => none
  | '*' :: '*' :: rest => some ([], rest)
  | c :: rest => (split_power rest).map (fun p => (c :: p.1, p.2))

/-- `str(gate)`: the fixed gates print as their cirq names; `measurement`
and `other` carry their own display string. -/
def gate_str : GateId → String
  | .pauliX => "X"
  | .pauliZ => "Z"
  | .hadamard => "H"
  | .cnot => "CNOT"
  | .cz => "CZ"
  | .swapGate => "SWAP"
  | .toffoli => "TOFFOLI"
  | .measurement s => s
  | .other s => s

/-- The name `get_latex_name` starts from: `str(op.gate)` when the
operation has a gate, else `str(op)`. -/
def op_name (op : Operation) : String :=
  match op.gate with
  | some g => gate_str g
  | none => op.str_rep

/-- `get_latex_name`: when the name contains `**`, rewrite it as
`$base^{exponent}$` splitting on the first occurrence; otherwise keep it. -/
def get_latex_name (op : Operation) : String :=
  match split_power (op_name op).data with
  | some (base, exponent) =>
      "$" ++ String.mk base ++ "^\x7b" ++ String.mk exponent ++ "\x7d$"
  | none => op_name op

/-- `name.replace('$', '').replace('^', '').replace('{', '').replace('}', '')`:
the four successive single-character deletions collapse to one filter. -/
def strip_markup (s : String) : String :=
  String.mk (s.data.filter (fun c =>
    !(c == '$' || c == '^' || c == '\x7b' || c == '\x7d')))

/-- The `match op.gate` of `op_to_qpic`: the symbol, target list, control
list and extra named arguments chosen for the operation.  The first eight
cases are the fixed table; the wildcard is the fallback branch, which
renders `G <latex name>` over all the qubits and adds a
`width = 6 * effective_len` argument when the name's effective length
(after `strip_markup`) exceeds 1. -/
def gate_dispatch (op : Operation) :
    String × List String × List String × List (String × Nat) :=
  match op.gate with
  | some .pauliX => ("X", op.qubits, [], [])
  | some .pauliZ => ("Z", op.qubits, [], [])
  | some .hadamard => ("H", op.qubits, [], [])
  | some .cnot => ("C", [op.qubits.getD 1 ""], [op.qubits.getD 0 ""], [])
  | some .cz => ("", [], op.qubits, [])
  | some .swapGate => ("SWAP", op.qubits, [], [])
  | some .toffoli => ("T", [op.qubits.getD 2 ""], op.qubits.take 2, [])
  | some (.measurement _) => ("M", op.qubits, [], [])
  | _ =>
    let name := get_latex_name op
    let effective_len := (strip_markup name).length
    ("G " ++ name, op.qubits, [],
      if 1 < effective_len then [("width", effective_len * 6)] else [])

/-- The operations that reach the wildcard (fallback) branch of
`gate_dispatch`: a gate outside the fixed table, or no gate at all. -/
def is_fallback (op : Operation) : Bool :=
  match op.gate with
  | some (.other _) => true
  | none => true
  | _ => false

/-- `op_to_qpic`: reorder targets and controls through the qubit order
(filtering its output back down, "as the qubit order MIGHT spit out all the
qubits"), sanitize the names, join as
`'{targets} {op_symbol} {controls}'.strip()` and append the extra
`key=value` arguments.  `none` models a raised `IndexError` from
`qpic_qubit_namer`. -/
def op_to_qpic (op : Operation) (qubit_order : QubitOrder) : Option String := do
  let (op_symbol, targets, controls, arguments) := gate_dispatch op
  let ordered_targets := qubit_order.order_for targets
  let targets2 := ordered_targets.filter (fun q => targets.contains q)
  let target_names ← targets2.mapM qpic_qubit_namer
  let ordered_controls := qubit_order.order_for controls
  let controls2 := ordered_controls.filter (fun q => controls.contains q)
  let control_names ← controls2.mapM qpic_qubit_namer
  let command := strip (String.intercalate " " target_names ++ " " ++
    op_symbol ++ " " ++ String.intercalate " " control_names)
  pure (arguments.foldl
    (fun cmd av => cmd ++ " " ++ av.1 ++ "=" ++ toString av.2) command)

/-- `circuit.all_qubits()`: the set of qubits of the circuit.  Python
returns a `frozenset`; a first-occurrence deduplicated list represents it
(the resolver's output never depends on the enumeration order: `default`
sorts and `explicit` ignores its input). -/
def all_qubits (c : Circuit) : List String :=
  (((c.moments.map Moment.operations).flatten).map Operation.qubits).flatten.dedup

/-- The declarations section: one `<sanitized> W <label>` line per qubit,
in resolver order. -/
def declaration_lines (qubits : List String) : Option (List String) :=
  qubits.mapM (fun q => (qpic_qubit_namer q).map (fun n => n ++ " W " ++ q))

/-- The moment-flattening loop of `circuit_to_qpic_lang`: all operations in
moment order, dropping every operation whose qubit list is empty (Python
`if op.qubits`). -/
def non_global_ops (c : Circuit) : List Operation :=
  c.moments.foldl
    (fun acc m => acc ++ m.operations.filter (fun op => !op.qubits.isEmpty)) []

/-- A macro keyword argument's value: Python distinguishes `bool` values
(`isinstance(value, bool)`) from everything else, of which only `str(value)`
is used. -/
inductive MacroValue where
  | bool (b : Bool)
  | other (s : String)
deriving DecidableEq

/-- Python `str.upper()` on the ASCII macro keys: upper-case each
character. -/
def upper (s : String) : String := String.mk (s.data.map Char.toUpper)

/-- The preamble loop of `circuit_to_qpic_lang`: a `True` value appends the
upper-cased key alone, `False` appends nothing, any other value appends
`<UPPERCASED KEY> <value>`; insertion order is kept. -/
def preamble_lines (kwargs : List (String × MacroValue)) : List String :=
  kwargs.foldr
    (fun kv acc => match kv.2 with
      | .bool true => upper kv.1 :: acc
      | .bool false => acc
      | .other s => (upper kv.1 ++ " " ++ s) :: acc) []

/-- `circuit_to_qpic_lang`: resolve the qubit order over the circuit's
qubits, build declarations, render the non-global operations, build the
preamble, and join the non-empty sections (Python `[p for p in parts if p]`)
with single newlines. -/
def circuit_to_qpic_lang (c : Circuit) (qubit_order : QubitOrder)
    (kwargs : List (String × MacroValue)) : Option String := do
  let decl_list ← declaration_lines (qubit_order.order_for (all_qubits c))
  let declarations := String.intercalate "\n" decl_list
  let op_list ← (non_global_ops c).mapM (fun op => op_to_qpic op qubit_order)
  let operations := String.intercalate "\n" op_list
  let preamble := String.intercalate "\n" (preamble_lines kwargs)
  let parts := [preamble, declarations, operations].filter (fun p => p ≠ "")
  pure (String.intercalate "\n" parts)

/-! ### Helper lemmas -/

lemma eq_empty_of_data_eq_nil {s : String} (h : s.data = []) : s = "" := by
  cases s with
  | mk d =>
    simp only at h
    rw [h]

lemma strip_forbidden_not_mem (q : String) :
    ∀ c ∈ (strip_forbidden q).data, c ∉ forbidden_symbols := by
  intro c hc
  have hc' : c ∈ q.data.filter (fun c => !forbidden_symbols.contains c) := hc
  have hfalse : forbidden_symbols.contains c = false := by
    have := (List.mem_filter.mp hc').2
    simpa using this
  intro hmem
  rw [List.contains_eq_any_beq] at hfalse
  simp at hfalse
  exact hfalse c hmem rfl

lemma qpic_qubit_namer_nil (q : String) (hd : (strip_forbidden q).data = []) :
    qpic_qubit_namer q = none := by
  unfold qpic_qubit_namer
  rw [hd]

lemma qpic_qubit_namer_cons (q : String) (c : Char) (cs : List Char)
    (hd : (strip_forbidden q).data = c :: cs) :
    qpic_qubit_namer q =
      if c = '-' then some ("minus_" ++ String.mk cs)
      else if c = '+' then some ("plus_" ++ String.mk cs)
      else some (strip_forbidden q) := by
  unfold qpic_qubit_namer
  rw [hd]

lemma minus_prefix_not_forbidden : ∀ c ∈ "minus_".data, c ∉ forbidden_symbols := by
  decide

lemma plus_prefix_not_forbidden : ∀ c ∈ "plus_".data, c ∉ forbidden_symbols := by
  decide

lemma lex_le_cons_iff (x y : Char) (xs ys : List Char) :
    lex_le (x :: xs) (y :: ys) = true ↔
      (x < y ∨ (x = y ∧ lex_le xs ys = true)) := by
  by_cases h1 : x < y
  · simp [lex_le, h1]
  · by_cases h2 : y < x
    · have hne : x ≠ y := fun he => absurd (he ▸ h2) (lt_irrefl x)
      simp [lex_le, h1, h2, hne]
    · have he : x = y := le_antisymm (not_lt.mp h2) (not_lt.mp h1)
      simp [lex_le, h1, h2, he]

lemma lex_le_total : ∀ a b : List Char, lex_le a b = true ∨ lex_le b a = true := by
  intro a
  induction a with
  | nil => intro b; left; rfl
  | cons x xs ih =>
    intro b
    cases b with
    | nil => right; rfl
    | cons y ys =>
      rcases lt_trichotomy x y with h | h | h
      · left; exact (lex_le_cons_iff x y xs ys).mpr (Or.inl h)
      · rcases ih ys with h' | h'
        · left; exact (lex_le_cons_iff x y xs ys).mpr (Or.inr ⟨h, h'⟩)
        · right; exact (lex_le_cons_iff y x ys xs).mpr (Or.inr ⟨h.symm, h'⟩)
      · right; exact (lex_le_cons_iff y x ys xs).mpr (Or.inl h)

lemma lex_le_trans :
    ∀ a b c : List Char, lex_le a b = true → lex_le b c = true →
      lex_le a c = true := by
  intro a
  induction a with
  | nil => intro b c _ _; rfl
  | cons x xs ih =>
    intro b c hab hbc
    cases b with
    | nil => exact absurd hab (by simp [lex_le])
    | cons y ys =>
      cases c with
      | nil => exact absurd hbc (by simp [lex_le])
      | cons z zs =>
        rcases (lex_le_cons_iff x y xs ys).mp hab with hxy | ⟨hxy, hxs⟩ <;>
          rcases (lex_le_cons_iff y z ys zs).mp hbc with hyz | ⟨hyz, hys⟩
        · exact (lex_le_cons_iff x z xs zs).mpr (Or.inl (lt_trans hxy hyz))
        · exact (lex_le_cons_iff x z xs zs).mpr (Or.inl (hyz ▸ hxy))
        · exact (lex_le_cons_iff x z xs zs).mpr (Or.inl (hxy ▸ hyz))
        · exact (lex_le_cons_iff x z xs zs).mpr
            (Or.inr ⟨hxy.trans hyz, ih ys zs hxs hys⟩)

lemma split_power_of_no_star (bl el : List Char) (h : '*' ∉ bl) :
    split_power (bl ++ '*' :: '*' :: el) = some (bl, el) := by
  induction bl with
  | nil => rfl
  | cons c cs ih =>
    have hc : c ≠ '*' := fun he => h (he ▸ List.mem_cons_self c cs)
    have hcs : '*' ∉ cs := fun hm => h (List.mem_cons_of_mem c hm)
    rw [split_power.eq_def]
    split
    · rename_i heq
      exact List.noConfusion heq
    · rename_i heq
      injection heq with h1 _
      exact absurd h1 hc
    · rename_i heq
      injection heq with h1 h2
      subst h1
      subst h2
      show Option.map (fun p => (c :: p.1, p.2))
        (split_power (cs ++ '*' :: '*' :: el)) = some (c :: cs, el)
      rw [ih hcs]
      rfl

lemma foldl_append_filter (ms : List Moment) (acc : List Operation) :
    ms.foldl
      (fun a m => a ++ m.operations.filter (fun op => !op.qubits.isEmpty)) acc
      = acc ++ (ms.map
          (fun m => m.operations.filter (fun op => !op.qubits.isEmpty))).flatten := by
  induction ms generalizing acc with
  | nil => simp
  | cons m ms ih => simp [ih, List.append_assoc]

/-! ### Claim theorems -/

/-- C2: `qpic_qubit_namer` returns normally (a `some` value) exactly when
the display name still has at least one character after the forbidden set
is removed; on a name that strips to nothing the unguarded `name[0]` access
fails (modelled by `none`). -/
theorem qpic_qubit_namer_total_iff (q : String) :
    (qpic_qubit_namer q).isSome ↔ strip_forbidden q ≠ "" := by
  cases hd : (strip_forbidden q).data with
  | nil =>
    rw [qpic_qubit_namer_nil q hd]
    simp [eq_empty_of_data_eq_nil hd]
  | cons c cs =>
    rw [qpic_qubit_namer_cons q c cs hd]
    have hne : strip_forbidden q ≠ "" := by
      intro he
      rw [he] at hd
      exact List.noConfusion (show ([] : List Char) = c :: cs from hd)
    have hsome : (if c = '-' then some ("minus_" ++ String.mk cs)
        else if c = '+' then some ("plus_" ++ String.mk cs)
        else some (strip_forbidden q)).isSome = true := by
      split
      · rfl
      · split <;> rfl
    simp [hsome, hne]

theorem qpic_qubit_namer_total_iff_witness :
    (qpic_qubit_namer "q0").isSome ↔ strip_forbidden "q0" ≠ "" :=
  qpic_qubit_namer_total_iff "q0"

/-- C4: the sanitizer's output never contains a forbidden character; the
stripped name is a subsequence of the input (no other character is
modified); a leading `-` (resp. `+`) of the stripped name is replaced by
the prefix `minus_` (resp. `plus_`) and any other leading character leaves
the stripped name unchanged; and the spec's four worked examples hold. -/
theorem qubit_namer_sanitizes :
    (∀ q r, qpic_qubit_namer q = some r → ∀ c ∈ r.data, c ∉ forbidden_symbols)
    ∧ (∀ q : String, (strip_forbidden q).data.Sublist q.data)
    ∧ (∀ q c cs, (strip_forbidden q).data = c :: cs → c ≠ '-' → c ≠ '+' →
        qpic_qubit_namer q = some (strip_forbidden q))
    ∧ (∀ q cs, (strip_forbidden q).data = '-' :: cs →
        qpic_qubit_namer q = some ("minus_" ++ String.mk cs))
    ∧ (∀ q cs, (strip_forbidden q).data = '+' :: cs →
        qpic_qubit_namer q = some ("plus_" ++ String.mk cs))
    ∧ qpic_qubit_namer "-x" = some "minus_x"
    ∧ qpic_qubit_namer "+x" = some "plus_x"
    ∧ qpic_qubit_namer "q_\x7b1\x7d" = some "q_1"
    ∧ qpic_qubit_namer "q_\\1" = some "q_1" := by
  refine ⟨?_, ?_, ?_, ?_, ?_, by decide, by decide, by decide, by decide⟩
  · intro q r h c hc
    cases hd : (strip_forbidden q).data with
    | nil => rw [qpic_qubit_namer_nil q hd] at h; exact Option.noConfusion h
    | cons c0 cs =>
      rw [qpic_qubit_namer_cons q c0 cs hd] at h
      have hcs : ∀ x ∈ cs, x ∉ forbidden_symbols := fun x hx =>
        strip_forbidden_not_mem q x (by rw [hd]; exact List.mem_cons_of_mem _ hx)
      by_cases h1 : c0 = '-'
      · rw [if_pos h1] at h
        cases Option.some.inj h
        have hc' : c ∈ "minus_".data ++ cs := hc
        rcases List.mem_append.mp hc' with hL | hR
        · exact minus_prefix_not_forbidden c hL
        · exact hcs c hR
      · rw [if_neg h1] at h
        by_cases h2 : c0 = '+'
        · rw [if_pos h2] at h
          cases Option.some.inj h
          have hc' : c ∈ "plus_".data ++ cs := hc
          rcases List.mem_append.mp hc' with hL | hR
          · exact plus_prefix_not_forbidden c hL
          · exact hcs c hR
        · rw [if_neg h2] at h
          cases Option.some.inj h
          exact strip_forbidden_not_mem q c hc
  · intro q
    exact List.filter_sublist q.data
  · intro q c cs hd h1 h2
    rw [qpic_qubit_namer_cons q c cs hd, if_neg h1, if_neg h2]
  · intro q cs hd
    rw [qpic_qubit_namer_cons q '-' cs hd, if_pos rfl]
  · intro q cs hd
    rw [qpic_qubit_namer_cons q '+' cs hd, if_neg (by decide), if_pos rfl]

theorem qubit_namer_sanitizes_witness :
    qpic_qubit_namer "-ab" = some ("minus_" ++ String.mk ['a', 'b'])
    ∧ qpic_qubit_namer "ab" = some (strip_forbidden "ab") :=
  ⟨qubit_namer_sanitizes.2.2.2.1 "-ab" ['a', 'b'] (by decide),
   qubit_namer_sanitizes.2.2.1 "ab" 'a' ['b'] (by decide) (by decide) (by decide)⟩

/-- C5: a controlled-NOT is rendered with symbol `C`, the second qubit as
the sole target and the first qubit as the sole control; with explicit
order `[c, t]` the operation `CNOT(c, t)` renders as `t C c`. -/
theorem cnot_renders_target_control :
    (∀ op : Operation, op.gate = some .cnot →
      gate_dispatch op = ("C", [op.qubits.getD 1 ""], [op.qubits.getD 0 ""], []))
    ∧ op_to_qpic ⟨some .cnot, ["c", "t"], ""⟩ (.explicit ["c", "t"])
        = some "t C c" := by
  constructor
  · intro op h
    unfold gate_dispatch
    rw [h]
  · decide

theorem cnot_renders_target_control_witness :
    gate_dispatch ⟨some .cnot, ["c", "t"], ""⟩ =
      ("C", [(["c", "t"] : List String).getD 1 ""],
       [(["c", "t"] : List String).getD 0 ""], []) :=
  cnot_renders_target_control.1 ⟨some .cnot, ["c", "t"], ""⟩ rfl

/-- C6: a controlled-Z is rendered with the empty symbol, no targets, and
all of the operation's qubits as controls; `CZ(a, b)` renders as `a b` with
the separators around the empty symbol collapsed by the strip. -/
theorem cz_renders_controls_only :
    (∀ op : Operation, op.gate = some .cz →
      gate_dispatch op = ("", [], op.qubits, []))
    ∧ op_to_qpic ⟨some .cz, ["a", "b"], ""⟩ .default = some "a b" := by
  constructor
  · intro op h
    unfold gate_dispatch
    rw [h]
  · decide

theorem cz_renders_controls_only_witness :
    gate_dispatch ⟨some .cz, ["a", "b"], ""⟩ = ("", [], ["a", "b"], []) :=
  cz_renders_controls_only.1 ⟨some .cz, ["a", "b"], ""⟩ rfl

/-- C8: a boolean macro value `True` contributes the upper-cased key alone,
`False` contributes nothing, and any other value contributes
`<UPPERCASED_KEY> <value>`, in argument-insertion order; `vertical=True`
yields `VERTICAL`, `vertical=False` yields nothing, `wirepad=10` yields
`WIREPAD 10`. -/
theorem preamble_macro_rule :
    (∀ (k : String) rest,
      preamble_lines ((k, .bool true) :: rest) = upper k :: preamble_lines rest)
    ∧ (∀ (k : String) rest,
      preamble_lines ((k, .bool false) :: rest) = preamble_lines rest)
    ∧ (∀ (k v : String) rest,
      preamble_lines ((k, .other v) :: rest)
        = (upper k ++ " " ++ v) :: preamble_lines rest)
    ∧ preamble_lines [("vertical", .bool true)] = ["VERTICAL"]
    ∧ preamble_lines [("vertical", .bool false)] = []
    ∧ preamble_lines [("wirepad", .other "10")] = ["WIREPAD 10"]
    ∧ circuit_to_qpic_lang ⟨[⟨[⟨some .pauliX, ["q0"], ""⟩]⟩]⟩ .default
        [("vertical", .bool true), ("wirepad", .other "10")]
        = some "VERTICAL\nWIREPAD 10\nq0 W q0\nq0 X" :=
  ⟨fun _ _ => rfl, fun _ _ => rfl, fun _ _ _ => rfl,
   by decide, by decide, by decide, by decide⟩

/-- C10: the emitter is a pure function of the circuit contents, the qubit
order and the macro arguments: equal inputs give byte-identical output. -/
theorem emit_deterministic (c₁ c₂ : Circuit) (ord₁ ord₂ : QubitOrder)
    (kw₁ kw₂ : List (String × MacroValue))
    (hc : c₁ = c₂) (ho : ord₁ = ord₂) (hk : kw₁ = kw₂) :
    circuit_to_qpic_lang c₁ ord₁ kw₁ = circuit_to_qpic_lang c₂ ord₂ kw₂ := by
  rw [hc, ho, hk]

theorem emit_deterministic_witness :
    circuit_to_qpic_lang ⟨[⟨[⟨some .pauliX, ["q0"], ""⟩]⟩]⟩ .default [] =
      circuit_to_qpic_lang ⟨[⟨[⟨some .pauliX, ["q0"], ""⟩]⟩]⟩ .default [] :=
  emit_deterministic _ _ _ _ _ _ rfl rfl rfl

/-- C1 (counterexample): with the default order, a fallback gate applied to
the qubits `b, a` (in that insertion order) renders its qubits as `a b`,
not in the operation's own insertion order `b a`. -/
theorem default_order_insertion_counterexample :
    op_to_qpic ⟨some (.other "GG"), ["b", "a"], ""⟩ .default
      = some "a b G GG width=12"
    ∧ some "a b G GG width=12" ≠ some "b a G GG width=12" := by
  decide

/-- C1 (amended): with the default order, the target and control qubits of
an operation are reordered into the default sorted total order over the
qubits (a permutation of the operation's qubits sorted by display name),
not kept in the operation's insertion order. -/
theorem default_order_sorts :
    (∀ qs : List String, (QubitOrder.order_for .default qs).Sorted
        (fun a b => str_le a b = true))
    ∧ (∀ qs : List String, (QubitOrder.order_for .default qs).Perm qs)
    ∧ op_to_qpic ⟨some (.other "GG"), ["b", "a"], ""⟩ .default
        = some "a b G GG width=12" := by
  refine ⟨?_, ?_, by decide⟩
  · intro qs
    haveI : IsTotal String (fun a b => str_le a b = true) :=
      ⟨fun a b => lex_le_total a.data b.data⟩
    haveI : IsTrans String (fun a b => str_le a b = true) :=
      ⟨fun a b c => lex_le_trans a.data b.data c.data⟩
    exact List.sorted_insertionSort _ qs
  · intro qs
    exact List.perm_insertionSort _ qs

/-- C3: in the fallback branch, a name containing `**` is rewritten to
`$base^{exponent}$` (splitting at the first occurrence); the fallback
symbol is `G <name>` with a ` width=<6 * effective length>` argument
appended exactly when the length of the name stripped of `$`, `^`, braces
exceeds 1; fixed-symbol gates never carry a width argument; and
`ISWAP**0.5` on two qubits renders as
`q(0) q(1) G $ISWAP^{0.5}$ width=48`. -/
theorem fallback_width_rule :
    (∀ (b e : String) (qs : List String) (s : String), '*' ∉ b.data →
      get_latex_name ⟨some (.other (b ++ "**" ++ e)), qs, s⟩
        = "$" ++ b ++ "^\x7b" ++ e ++ "\x7d$")
    ∧ (∀ op : Operation, is_fallback op = true →
      gate_dispatch op = ("G " ++ get_latex_name op, op.qubits, [],
        if 1 < (strip_markup (get_latex_name op)).length
        then [("width", (strip_markup (get_latex_name op)).length * 6)]
        else []))
    ∧ (∀ op : Operation, is_fallback op = false →
      (gate_dispatch op).2.2.2 = [])
    ∧ op_to_qpic ⟨some (.other "ISWAP**0.5"), ["q(0)", "q(1)"], ""⟩ .default
        = some "q(0) q(1) G $ISWAP^\x7b0.5\x7d$ width=48" := by
  refine ⟨?_, ?_, ?_, by decide⟩
  · intro b e qs s hstar
    unfold get_latex_name
    rw [show (op_name ⟨some (.other (b ++ "**" ++ e)), qs, s⟩).data
        = (b.data ++ ['*', '*']) ++ e.data from rfl, List.append_assoc]
    rw [show ('*' :: ['*']) ++ e.data = '*' :: '*' :: e.data from rfl]
    rw [split_power_of_no_star b.data e.data hstar]
  · intro op hf
    cases op with
    | mk g qs s =>
      cases g with
      | none => rfl
      | some gi => cases gi <;> first | rfl | exact Bool.noConfusion hf
  · intro op hf
    cases op with
    | mk g qs s =>
      cases g with
      | none => exact Bool.noConfusion hf
      | some gi => cases gi <;> first | rfl | exact Bool.noConfusion hf

theorem fallback_width_rule_witness :
    get_latex_name ⟨some (.other ("ISWAP" ++ "**" ++ "0.5")), [], ""⟩
      = "$" ++ "ISWAP" ++ "^\x7b" ++ "0.5" ++ "\x7d$"
    ∧ (gate_dispatch ⟨some .pauliX, ["q0"], ""⟩).2.2.2 = [] :=
  ⟨fallback_width_rule.1 "ISWAP" "0.5" [] "" (by decide),
   fallback_width_rule.2.2.1 ⟨some .pauliX, ["q0"], ""⟩ rfl⟩

/-- C7: the emitter concatenates the non-empty sections (preamble,
declarations, operations), each joined internally by newlines, separated
by single newlines, omitting empty sections; the single-Pauli-X circuit on
qubit `q0` emits exactly `q0 W q0\nq0 X`. -/
theorem emit_assembles_sections :
    (∀ (c : Circuit) (ord : QubitOrder) (kw : List (String × MacroValue))
        (ds os : List String),
      declaration_lines (ord.order_for (all_qubits c)) = some ds →
      (non_global_ops c).mapM (fun op => op_to_qpic op ord) = some os →
      circuit_to_qpic_lang c ord kw = some (String.intercalate "\n"
        ([String.intercalate "\n" (preamble_lines kw),
          String.intercalate "\n" ds,
          String.intercalate "\n" os].filter (fun p => p ≠ ""))))
    ∧ circuit_to_qpic_lang ⟨[⟨[⟨some .pauliX, ["q0"], ""⟩]⟩]⟩ .default []
        = some "q0 W q0\nq0 X" := by
  constructor
  · intro c ord kw ds os h1 h2
    unfold circuit_to_qpic_lang
    rw [h1, h2]
    rfl
  · decide

theorem emit_assembles_sections_witness :
    circuit_to_qpic_lang ⟨[⟨[⟨some .pauliX, ["q0"], ""⟩]⟩]⟩ .default []
      = some (String.intercalate "\n"
          ([String.intercalate "\n" (preamble_lines []),
            String.intercalate "\n" ["q0 W q0"],
            String.intercalate "\n" ["q0 X"]].filter (fun p => p ≠ ""))) :=
  emit_assembles_sections.1 ⟨[⟨[⟨some .pauliX, ["q0"], ""⟩]⟩]⟩ .default []
    ["q0 W q0"] ["q0 X"] (by decide) (by decide)

/-- C9: the operation stream is the moment-ordered flattening of the
circuit filtered down to operations with at least one qubit, so qubit-less
(global) operations contribute no line; a circuit holding a global
operation and a Pauli-X renders only the Pauli-X line. -/
theorem global_ops_filtered :
    (∀ c : Circuit, non_global_ops c
        = ((c.moments.map Moment.operations).flatten).filter
            (fun op => !op.qubits.isEmpty))
    ∧ (∀ c : Circuit, ∀ op ∈ non_global_ops c, op.qubits ≠ [])
    ∧ circuit_to_qpic_lang
        ⟨[⟨[⟨none, [], "GLOBAL"⟩, ⟨some .pauliX, ["q0"], ""⟩]⟩]⟩ .default []
        = some "q0 W q0\nq0 X" := by
  have h1 : ∀ c : Circuit, non_global_ops c
      = ((c.moments.map Moment.operations).flatten).filter
          (fun op => !op.qubits.isEmpty) := by
    intro c
    unfold non_global_ops
    rw [foldl_append_filter]
    simp only [List.nil_append, List.filter_flatten, List.map_map]
    rfl
  refine ⟨h1, ?_, by decide⟩
  intro c op hop
  rw [h1 c] at hop
  have h2 := (List.mem_filter.mp hop).2
  simpa using h2

theorem global_ops_filtered_witness :
    (⟨some .pauliX, ["q0"], ""⟩ : Operation).qubits ≠ [] :=
  global_ops_filtered.2.1
    ⟨[⟨[⟨none, [], "GLOBAL"⟩, ⟨some .pauliX, ["q0"], ""⟩]⟩]⟩
    ⟨some .pauliX, ["q0"], ""⟩ (by decide)

end Qpic
